import Mathlib

/-!
Verification of the DosNa MPI engine (`dosna/engines/mpi.py`).

The development shallowly embeds the coordination layer of the MPI engine:

* the round-robin chunk sharding `range(self.mpi_rank, self.total_chunks,
  self.mpi_size)` used by `clear`, `load`, `map` and `apply`;
* the value-level semantics of the bulk dataset operations `load`, `map`
  and `apply` over an explicit chunk store;
* the per-process event traces of the metadata operations
  (`create_pool`, `del_pool`, `create_dataset`, `del_dataset`,
  `create_chunk`, `clone`, `get_pool`, `get_dataset`, `get_chunk`).

The chunk-bounds arithmetic (`_idx_from_flat`, `_global_chunk_bounds`,
`_local_chunk_bounds`) and the backend dataset attributes live outside the
provided slice of the repository; they are modelled from the specification
where needed, and each such definition says so in its doc comment.
-/

namespace DosNa

/-! ## Python `range` and the round-robin shard -/

/-- Embedding of Python `range(start, stop, step)` for a positive `step`:
the list `[start, start+step, ...]` of all values below `stop`. -/
def pyRange (start stop step : Nat) : List Nat :=
  (List.range ((stop - start + (step - 1)) / step)).map (fun k => start + k * step)

/-- The shard of flat chunk ordinals iterated by rank `mpi_rank` in the bulk
dataset operations: `range(self.mpi_rank, self.total_chunks, self.mpi_size)`
(`clear`, `load`, `map`, `apply` in `mpi.py`). -/
def chunk_shard (mpi_rank total_chunks mpi_size : Nat) : List Nat :=
  pyRange mpi_rank total_chunks mpi_size

/-! ## Chunk-bounds arithmetic

The bounds collaborator (`_idx_from_flat`, `_global_chunk_bounds`,
`_local_chunk_bounds` and the `total_chunks` attribute) is inherited from
`CpuDataset`/`BackendDataset`, which are outside the provided source slice;
the definitions below are modelled from the specification (§3, §6). -/

/-- Modelled from the spec: the chunk grid has, per dimension, the number of
chunks needed to cover the shape, i.e. the ceiling of `shape / chunk_size`
(`Dataset: ... total chunk count (product of the chunk-grid dimensions)`). -/
def chunk_grid (shape chunk_size : List Nat) : List Nat :=
  List.zipWith (fun s c => (s + (c - 1)) / c) shape chunk_size

/-- Modelled from the spec: `totalChunks` is the product of the chunk-grid
dimensions. -/
def total_chunks (shape chunk_size : List Nat) : Nat :=
  (chunk_grid shape chunk_size).prod

/-- Modelled from the spec: `indexFromFlat(ordinal) → multiIndex`, the
bijection between a flat ordinal in `[0,totalChunks)` and a
multi-dimensional chunk index ("integer enumerating chunks in a fixed
external order"); realized as little-endian mixed-radix decoding. -/
def idx_from_flat : List Nat → Nat → List Nat
  | [], _ => []
  | d :: ds, n => n % d :: idx_from_flat ds (n / d)

/-- Inverse of `idx_from_flat`: little-endian mixed-radix encoding of a
multi-dimensional chunk index as a flat ordinal. -/
def flat_from_idx : List Nat → List Nat → Nat
  | d :: ds, i :: is => i + d * flat_from_idx ds is
  | _, _ => 0

/-- Pointwise strict comparison of coordinate vectors; false on length
mismatch. -/
def allLt : List Nat → List Nat → Bool
  | [], [] => true
  | x :: xs, y :: ys => decide (x < y) && allLt xs ys
  | _, _ => false

/-- All entries positive (chunk sizes are tuples of positive integers). -/
def allPos : List Nat → Bool
  | [] => true
  | c :: cs => decide (0 < c) && allPos cs

/-- Pointwise sum of coordinate vectors. -/
def vadd (a b : List Nat) : List Nat := List.zipWith (· + ·) a b

/-- Pointwise product of coordinate vectors. -/
def vmul (a b : List Nat) : List Nat := List.zipWith (· * ·) a b

/-- Pointwise quotient of coordinate vectors. -/
def vdiv (a b : List Nat) : List Nat := List.zipWith (· / ·) a b

/-- Pointwise remainder of coordinate vectors. -/
def vmod (a b : List Nat) : List Nat := List.zipWith (· % ·) a b

/-- Modelled from the spec: the extent of chunk `i` — per dimension the
chunk size, clipped at the dataset boundary (`a possibly partial write for
boundary chunks`). The global slice of chunk `i` starts at `i * chunk_size`
and the local slice covers `[0, extent)`. -/
def chunk_extent : List Nat → List Nat → List Nat → List Nat
  | s :: ss, c :: cs, i :: is => min c (s - i * c) :: chunk_extent ss cs is
  | _, _, _ => []

/-- A chunk store: flat chunk ordinal → local coordinate → stored value
(`none` where nothing has been written). -/
def ChunkStore (α : Type) : Type := Nat → List Nat → Option α

/-- One iteration of the loop body of `MpiDataset.load`: for flat ordinal
`t`, write the sub-array of `data` selected by the chunk's global slices
into the chunk region selected by its local slices
(`self.set_chunk_data(idx, data[gslices], slices=lslices)`). -/
def load_write {α : Type} (shape chunk_size : List Nat) (data : List Nat → α)
    (st : ChunkStore α) (t : Nat) : ChunkStore α :=
  fun u j =>
    if u = t then
      let i := idx_from_flat (chunk_grid shape chunk_size) t
      if allLt j (chunk_extent shape chunk_size i) then
        some (data (vadd (vmul i chunk_size) j))
      else st u j
    else st u j

/-- The chunk writes performed by rank `r` in `MpiDataset.load`: the loop
`for idx in range(self.mpi_rank, self.total_chunks, self.mpi_size)`. -/
def load_rank {α : Type} (shape chunk_size : List Nat) (P : Nat)
    (data : List Nat → α) (st : ChunkStore α) (r : Nat) : ChunkStore α :=
  (chunk_shard r (total_chunks shape chunk_size) P).foldl
    (load_write shape chunk_size data) st

/-- The combined effect of `MpiDataset.load` across all `P` ranks; the
per-rank writes touch disjoint chunks, so the sequential composition is
their common overall effect. -/
def load_run {α : Type} (shape chunk_size : List Nat) (P : Nat)
    (data : List Nat → α) (st : ChunkStore α) : ChunkStore α :=
  (List.range P).foldl (load_rank shape chunk_size P data) st

/-- The error raised by `MpiDataset.load` on a shape mismatch
(`raise Exception('Data shape does not match')`, the spec's
`ShapeMismatch`). -/
inductive DosnaError : Type
  | shapeMismatch
  deriving DecidableEq

/-- `MpiDataset.load`: the shape guard followed by the sharded chunk
writes. Returns the error (if any) and the resulting chunk store. -/
def load {α : Type} (shape chunk_size : List Nat) (P : Nat)
    (data_shape : List Nat) (data : List Nat → α) (st : ChunkStore α) :
    Option DosnaError × ChunkStore α :=
  if data_shape ≠ shape then (some DosnaError.shapeMismatch, st)
  else (none, load_run shape chunk_size P data st)

/-- Reassembly of a global coordinate from the chunk store: coordinate `g`
lives in chunk `g / chunk_size` at local offset `g % chunk_size`. -/
def reassemble {α : Type} (shape chunk_size : List Nat) (st : ChunkStore α)
    (g : List Nat) : Option α :=
  st (flat_from_idx (chunk_grid shape chunk_size) (vdiv g chunk_size))
    (vmod g chunk_size)

/-! ## `map` and `apply` over an abstract per-chunk store

For `map` and `apply` each chunk is read and written whole
(`get_chunk_data(idx)` / `set_chunk_data(idx, data)`), so the store is
abstracted to one value per flat chunk ordinal. -/

/-- One iteration of the loop body of `MpiDataset.apply`: read chunk `t`,
apply `func`, write the result back to the same chunk. -/
def apply_write {α : Type} (func : α → α) (st : Nat → α) (t : Nat) : Nat → α :=
  fun u => if u = t then func (st t) else st u

/-- The in-place writes performed by rank `r` in `MpiDataset.apply`. -/
def apply_rank {α : Type} (T P : Nat) (func : α → α) (st : Nat → α)
    (r : Nat) : Nat → α :=
  (chunk_shard r T P).foldl (apply_write func) st

/-- The combined effect of `MpiDataset.apply` across all `P` ranks. -/
def apply_run {α : Type} (T P : Nat) (func : α → α) (st : Nat → α) : Nat → α :=
  (List.range P).foldl (apply_rank T P func) st

/-- One iteration of the loop body of `MpiDataset.map`: read chunk `t` of
the source (first component), apply `func`, write the result to chunk `t`
of the output dataset (second component). The source is only read. -/
def map_write {α : Type} (func : α → α) (s : (Nat → α) × (Nat → α))
    (t : Nat) : (Nat → α) × (Nat → α) :=
  (s.1, fun u => if u = t then func (s.1 t) else s.2 u)

/-- The writes performed by rank `r` in `MpiDataset.map`. -/
def map_rank {α : Type} (T P : Nat) (func : α → α)
    (s : (Nat → α) × (Nat → α)) (r : Nat) : (Nat → α) × (Nat → α) :=
  (chunk_shard r T P).foldl (map_write func) s

/-- The combined effect of `MpiDataset.map` across all `P` ranks on the
pair (source store, output store). -/
def map_run {α : Type} (T P : Nat) (func : α → α)
    (s : (Nat → α) × (Nat → α)) : (Nat → α) × (Nat → α) :=
  (List.range P).foldl (map_rank T P func) s

/-! ## Event traces of the metadata operations

Each coordination-layer operation is embedded as the list of backend and
collective events one process performs, in program order, together with its
return value and its updated local state. `barrier` and `bcast` are the two
collective primitives; `…B` events are calls into the backend capability
interface. -/

/-- One per-process event of the coordination layer. -/
inductive Ev : Type
  | barrier
  | bcast (root : Nat)
  | createPoolB (name : String)
  | delPoolB (name : String)
  | createDatasetB (name : String)
  | delDatasetB (name : String)
  | createChunkB (idx : Nat)
  | getPoolB (name : String)
  | getDatasetB (name : String)
  | getChunkB (idx : Nat)
  | disconnectB
  | connectB
  | newClusterB (backend_name : String) (cluster_name : String)
  | loadEv (v : Nat)
  deriving DecidableEq

/-- The metadata mutations named by the spec: pool create/delete, dataset
create/delete, chunk create. -/
def isMetaMutation : Ev → Bool
  | Ev.createPoolB _ => true
  | Ev.delPoolB _ => true
  | Ev.createDatasetB _ => true
  | Ev.delDatasetB _ => true
  | Ev.createChunkB _ => true
  | _ => false

/-- Barrier recognizer. -/
def isBarrier : Ev → Bool
  | Ev.barrier => true
  | _ => false

/-- The two collective primitives. -/
def isCollective : Ev → Bool
  | Ev.barrier => true
  | Ev.bcast _ => true
  | _ => false

/-- Every metadata mutation in the trace is followed by a later barrier. -/
def mutationsFollowedByBarrier : List Ev → Bool
  | [] => true
  | e :: tr =>
    (!(isMetaMutation e) || tr.any isBarrier) && mutationsFollowedByBarrier tr

/-- Every metadata mutation in the trace is preceded by an earlier
barrier. -/
def mutationsPrecededByBarrier (tr : List Ev) : Bool :=
  mutationsFollowedByBarrier tr.reverse

/-- Every metadata mutation in the trace has a barrier on both sides. -/
def mutationsBracketed (tr : List Ev) : Bool :=
  mutationsFollowedByBarrier tr && mutationsPrecededByBarrier tr

/-- The trace performs no metadata mutation. -/
def metaMutationFree (tr : List Ev) : Bool :=
  tr.all (fun e => !(isMetaMutation e))

/-- A storage backend as seen by the engine. The `name` field is what
`MpiCluster.__init__` stores; the capability flag is modelled from the
spec (§9): `requiresReconnectAfterStructuralChange` declares that handles
go stale after structural changes (the spec's proposed generalization of
the source's hard-coded ceph special case). -/
structure Backend where
  name : String
  requiresReconnectAfterStructuralChange : Bool
  deriving DecidableEq

/-- Per-process state of an `MpiCluster`: the stored `cparams`
(backend, cluster name), the MPI mixin fields, and a generation counter
standing for the identity of `self.instance` (bumped when the instance is
replaced by a fresh `backend.Cluster`). -/
structure MpiClusterS where
  backend : Backend
  cname : String
  mpi_rank : Nat
  mpi_size : Nat
  mpi_comm : Nat
  instance_gen : Nat
  deriving DecidableEq

/-- `self.mpi_is_root = self.mpi_rank == 0` (MpiMixin). -/
def mpi_is_root (c : MpiClusterS) : Bool := c.mpi_rank == 0

/-- `self.ceph_backend = (backend.name == 'ceph')` (MpiCluster.__init__):
the source keys the reconnect step on the backend name, not on a declared
capability flag. -/
def ceph_backend (c : MpiClusterS) : Bool := c.backend.name == "ceph"

/-- A wrapped `MpiPool` handle: the backend pool (identified by name)
bound to the shared communicator. -/
structure MpiPoolH where
  pname : String
  mpi_comm : Nat
  deriving DecidableEq

/-- `MpiCluster.get_pool`: fetch the backend pool and wrap it with the
shared communicator; returns (wrapped pool, unchanged state, trace). -/
def get_pool (c : MpiClusterS) (name : String) :
    MpiPoolH × MpiClusterS × List Ev :=
  ({ pname := name, mpi_comm := c.mpi_comm }, c, [Ev.getPoolB name])

/-- `MpiCluster.create_pool`: root issues the backend create; barrier; if
`self.ceph_backend`, disconnect, recreate the instance from the stored
`cparams`, connect, barrier; finally fetch and wrap the pool, which is the
return value. -/
def create_pool (c : MpiClusterS) (name : String) :
    MpiPoolH × MpiClusterS × List Ev :=
  let tr1 := (if mpi_is_root c then [Ev.createPoolB name] else []) ++
    [Ev.barrier]
  if ceph_backend c then
    let c' := { c with instance_gen := c.instance_gen + 1 }
    ((get_pool c' name).1, c',
      tr1 ++ [Ev.disconnectB, Ev.newClusterB c.backend.name c.cname,
        Ev.connectB, Ev.barrier] ++ (get_pool c' name).2.2)
  else
    ((get_pool c name).1, c, tr1 ++ (get_pool c name).2.2)

/-- Claim variant of `create_pool`, following the specification's words:
identical except that the reconnect step is keyed on the declared
per-backend capability flag `requiresReconnectAfterStructuralChange`
instead of the backend name. Defined only to be compared with
`create_pool`. -/
def create_pool_specFlag (c : MpiClusterS) (name : String) :
    MpiPoolH × MpiClusterS × List Ev :=
  let tr1 := (if mpi_is_root c then [Ev.createPoolB name] else []) ++
    [Ev.barrier]
  if c.backend.requiresReconnectAfterStructuralChange then
    let c' := { c with instance_gen := c.instance_gen + 1 }
    ((get_pool c' name).1, c',
      tr1 ++ [Ev.disconnectB, Ev.newClusterB c.backend.name c.cname,
        Ev.connectB, Ev.barrier] ++ (get_pool c' name).2.2)
  else
    ((get_pool c name).1, c, tr1 ++ (get_pool c name).2.2)

/-- `MpiCluster.del_pool`: barrier; root deletes; barrier; the same
reconnect step as `create_pool` when `self.ceph_backend`. -/
def del_pool (c : MpiClusterS) (name : String) : MpiClusterS × List Ev :=
  let tr1 := [Ev.barrier] ++
    (if mpi_is_root c then [Ev.delPoolB name] else []) ++ [Ev.barrier]
  if ceph_backend c then
    ({ c with instance_gen := c.instance_gen + 1 },
      tr1 ++ [Ev.disconnectB, Ev.newClusterB c.backend.name c.cname,
        Ev.connectB, Ev.barrier])
  else
    (c, tr1)

/-- Dictionary lookup for Python keyword arguments (`'data' in kwargs` /
`kwargs['data']`), with argument values abstracted to `Nat` ids. -/
def kwLookup : List (String × Nat) → String → Option Nat
  | [], _ => none
  | (k, v) :: rest, key => if k = key then some v else kwLookup rest key

/-- The outcome of one per-process run of `MpiPool.create_dataset`:
`root_call` records the positional and keyword arguments the root process
passed to the backend create (none on non-root), and `events` is the
per-process trace, where `loadEv v` stands for invoking the collective
`ds.load(kwargs['data'])`. -/
structure CreateDatasetRun where
  root_call : Option (List Nat × List (String × Nat))
  events : List Ev
  deriving DecidableEq

/-- `MpiPool.create_dataset`: root issues the backend create with `*args,
**kwargs` forwarded unchanged; barrier; every process fetches the dataset;
if `'data' in kwargs`, invoke the collective `ds.load(kwargs['data'])`. -/
def create_dataset (is_root : Bool) (name : String) (args : List Nat)
    (kwargs : List (String × Nat)) : CreateDatasetRun :=
  { root_call := if is_root then some (args, kwargs) else none
    events :=
      (if is_root then [Ev.createDatasetB name] else []) ++ [Ev.barrier] ++
      [Ev.getDatasetB name] ++
      (match kwLookup kwargs "data" with
        | some v => [Ev.loadEv v]
        | none => []) }

/-- `MpiPool.del_dataset`: barrier; root deletes; barrier. -/
def del_dataset (is_root : Bool) (name : String) : List Ev :=
  [Ev.barrier] ++ (if is_root then [Ev.delDatasetB name] else []) ++
    [Ev.barrier]

/-- `MpiDataset.create_chunk`: root issues the backend create; barrier;
every process fetches the chunk. -/
def create_chunk (is_root : Bool) (idx : Nat) : List Ev :=
  (if is_root then [Ev.createChunkB idx] else []) ++ [Ev.barrier] ++
    [Ev.getChunkB idx]

/-- A backend dataset handle: the static attributes of §6 (the backend
dataset class is outside the source slice; the attribute list is modelled
from the spec). -/
structure DatasetHandle where
  name : String
  shape : List Nat
  dtype : String
  chunk_size : List Nat
  fillvalue : Nat
  deriving DecidableEq

/-- A wrapped `MpiDataset` handle: the backend handle (`self.instance`,
named `inst` here since `instance` is reserved in Lean) bound to the shared
communicator. -/
structure MpiDatasetS where
  inst : DatasetHandle
  mpi_comm : Nat
  deriving DecidableEq

/-- `MpiPool.get_dataset`: fetch the backend dataset handle and wrap it
with the shared communicator; returns (wrapped handle, unchanged pool
state, trace). -/
def get_dataset (p : MpiPoolH) (backend_ds : DatasetHandle) :
    MpiDatasetS × MpiPoolH × List Ev :=
  ({ inst := backend_ds, mpi_comm := p.mpi_comm }, p,
    [Ev.getDatasetB backend_ds.name])

/-- `MpiDataset.get_chunk`: fetch the backend chunk and wrap it
(`MpiDataChunk` adds nothing); returns (chunk handle, unchanged dataset
state, trace). -/
def get_chunk (d : MpiDatasetS) (idx : Nat) :
    Nat × MpiDatasetS × List Ev :=
  (idx, d, [Ev.getChunkB idx])

/-- `MpiDataset.clone`: root creates a backend dataset under `output_name`
with the source's shape, dtype, chunk size and fill value; the fresh handle
is broadcast from root, and every rank wraps the broadcast handle with the
shared communicator. Since `bcast` hands every rank root's value, the
per-rank return value is the one computed here. -/
def clone (d : MpiDatasetS) (output_name : String) : MpiDatasetS :=
  { inst :=
      { name := output_name, shape := d.inst.shape, dtype := d.inst.dtype,
        chunk_size := d.inst.chunk_size, fillvalue := d.inst.fillvalue }
    mpi_comm := d.mpi_comm }

/-- The per-process trace of `MpiDataset.clone`: the root-only backend
create followed by the broadcast; no refetch by name and no barrier. -/
def clone_events (is_root : Bool) (output_name : String) : List Ev :=
  (if is_root then [Ev.createDatasetB output_name] else []) ++ [Ev.bcast 0]

/-- A backend named `ram` with the capability flag clear, for concrete
instances. -/
def ramBackend : Backend :=
  { name := "ram", requiresReconnectAfterStructuralChange := false }

/-- A backend named `ram` whose capability flag is set: a backend the
spec's flag-driven reconnect rule covers but the source's hard-coded name
check does not. -/
def flaggedRamBackend : Backend :=
  { name := "ram", requiresReconnectAfterStructuralChange := true }

/-- A backend named `ceph` (flag set), for concrete instances. -/
def cephStorageBackend : Backend :=
  { name := "ceph", requiresReconnectAfterStructuralChange := true }

/-- A concrete two-process cluster state over the given backend, seen from
the given rank. -/
def testCluster (b : Backend) (rank : Nat) : MpiClusterS :=
  { backend := b, cname := "c", mpi_rank := rank, mpi_size := 2,
    mpi_comm := 0, instance_gen := 0 }

/-- A concrete wrapped dataset handle, for concrete instances. -/
def srcDataset : MpiDatasetS :=
  { inst := { name := "src", shape := [4, 4], dtype := "float32",
              chunk_size := [2, 2], fillvalue := 0 },
    mpi_comm := 5 }

theorem count_lt_ceil_iff {m st k : Nat} (hst : 0 < st) :
    k < (m + (st - 1)) / st ↔ k * st < m := by
  constructor
  · intro h
    have h1 : k + 1 ≤ (m + (st - 1)) / st := h
    have h2 : (k + 1) * st ≤ m + (st - 1) := (Nat.le_div_iff_mul_le hst).mp h1
    have h3 : (k + 1) * st = k * st + st := by ring
    omega
  · intro h
    have h2 : (k + 1) * st ≤ m + (st - 1) := by
      have h3 : (k + 1) * st = k * st + st := by ring
      omega
    exact (Nat.le_div_iff_mul_le hst).mpr h2

theorem mem_pyRange {start stop step n : Nat} (hstep : 0 < step) :
    n ∈ pyRange start stop step ↔ ∃ k, n = start + k * step ∧ n < stop := by
  unfold pyRange
  simp only [List.mem_map, List.mem_range]
  constructor
  · rintro ⟨k, hk, rfl⟩
    refine ⟨k, rfl, ?_⟩
    have := (count_lt_ceil_iff hstep).mp hk
    omega
  · rintro ⟨k, rfl, hlt⟩
    refine ⟨k, ?_, rfl⟩
    exact (count_lt_ceil_iff hstep).mpr (by omega)

theorem nodup_pyRange {start stop step : Nat} (hstep : 0 < step) :
    (pyRange start stop step).Nodup := by
  unfold pyRange
  refine List.Nodup.map ?_ (List.nodup_range _)
  intro a b hab
  have hab' : start + a * step = start + b * step := hab
  have : a * step = b * step := by omega
  exact Nat.eq_of_mul_eq_mul_right hstep this

/-- Membership in a rank's shard, for a valid rank `r < P`: the shard of
rank `r` holds exactly the ordinals below `T` congruent to `r` mod `P`. -/
theorem mem_chunk_shard {r T P n : Nat} (hP : 0 < P) (hr : r < P) :
    n ∈ chunk_shard r T P ↔ n < T ∧ n % P = r := by
  unfold chunk_shard
  rw [mem_pyRange hP]
  constructor
  · rintro ⟨k, rfl, hlt⟩
    refine ⟨hlt, ?_⟩
    simp [Nat.add_mul_mod_self_right, Nat.mod_eq_of_lt hr]
  · rintro ⟨hlt, hmod⟩
    refine ⟨n / P, ?_, hlt⟩
    have hd := Nat.div_add_mod n P
    have hc : n / P * P = P * (n / P) := Nat.mul_comm _ _
    omega

theorem notMem_chunk_shard_of_le {r T P n : Nat} (hT : T ≤ n) :
    n ∉ chunk_shard r T P := by
  intro h
  unfold chunk_shard pyRange at h
  simp only [List.mem_map, List.mem_range] at h
  obtain ⟨k, hk, rfl⟩ := h
  rcases Nat.eq_zero_or_pos P with hP | hP
  · simp [hP] at hk
  · have := (count_lt_ceil_iff hP).mp hk
    omega

/-- C1. The round-robin shards cover `[0,T)` exactly: every flat ordinal
below `T` lies in the shard of rank `n % P` and in no other valid rank's
shard; concretely, for `T = 10`, `P = 3`, rank 0 owns `{0,3,6,9}`, rank 1
owns `{1,4,7}` and rank 2 owns `{2,5,8}`. -/
theorem chunk_shard_partitions :
    (∀ T P n, 0 < P → n < T →
      n ∈ chunk_shard (n % P) T P ∧
      ∀ r, r < P → n ∈ chunk_shard r T P → r = n % P) ∧
    chunk_shard 0 10 3 = [0, 3, 6, 9] ∧
    chunk_shard 1 10 3 = [1, 4, 7] ∧
    chunk_shard 2 10 3 = [2, 5, 8] := by
  refine ⟨?_, by decide, by decide, by decide⟩
  intro T P n hP hn
  constructor
  · exact (mem_chunk_shard hP (Nat.mod_lt n hP)).mpr ⟨hn, rfl⟩
  · intro r hr hmem
    exact ((mem_chunk_shard hP hr).mp hmem).2.symm

/-- Concrete instance of `chunk_shard_partitions`: ordinal 4 of 10 chunks
over 3 ranks belongs to the shard of rank `4 % 3`. -/
theorem chunk_shard_partitions_witness :
    4 ∈ chunk_shard (4 % 3) 10 3 ∧ (2 < 3 → 4 ∈ chunk_shard 2 10 3 → 2 = 4 % 3) := by
  have h := chunk_shard_partitions.1 10 3 4 (by decide) (by decide)
  exact ⟨h.1, fun h2 hm => h.2 2 h2 hm⟩

/-! ## Chunk-bounds lemmas -/

theorem allLt_length : ∀ {a b : List Nat}, allLt a b = true → a.length = b.length
  | [], [], _ => rfl
  | [], _ :: _, h => by simp [allLt] at h
  | _ :: _, [], h => by simp [allLt] at h
  | _ :: xs, _ :: ys, h => by
    simp only [allLt, Bool.and_eq_true] at h
    simp [allLt_length h.2]

theorem idx_from_flat_flat_from_idx :
    ∀ (ds is : List Nat), allLt is ds = true →
      idx_from_flat ds (flat_from_idx ds is) = is := by
  intro ds
  induction ds with
  | nil =>
    intro is h
    cases is with
    | nil => rfl
    | cons i is => simp [allLt] at h
  | cons d ds ih =>
    intro is h
    cases is with
    | nil => simp [allLt] at h
    | cons i is =>
      simp only [allLt, Bool.and_eq_true, decide_eq_true_eq] at h
      obtain ⟨hi, hrest⟩ := h
      have hd : 0 < d := Nat.lt_of_le_of_lt (Nat.zero_le _) hi
      simp only [flat_from_idx, idx_from_flat]
      rw [Nat.add_mul_mod_self_left, Nat.mod_eq_of_lt hi,
        Nat.add_mul_div_left _ _ hd, Nat.div_eq_of_lt hi, Nat.zero_add]
      simp [ih is hrest]

theorem flat_from_idx_lt :
    ∀ (ds is : List Nat), allLt is ds = true →
      flat_from_idx ds is < ds.prod := by
  intro ds
  induction ds with
  | nil =>
    intro is h
    cases is with
    | nil => simp [flat_from_idx]
    | cons i is => simp [allLt] at h
  | cons d ds ih =>
    intro is h
    cases is with
    | nil => simp [allLt] at h
    | cons i is =>
      simp only [allLt, Bool.and_eq_true, decide_eq_true_eq] at h
      obtain ⟨hi, hrest⟩ := h
      have hr := ih is hrest
      have h1 : d * (flat_from_idx ds is + 1) ≤ d * ds.prod :=
        Nat.mul_le_mul_left d hr
      have h2 : d * (flat_from_idx ds is + 1) = d * flat_from_idx ds is + d := by
        ring
      simp only [flat_from_idx, List.prod_cons]
      omega

theorem div_lt_ceil {g s c : Nat} (hg : g < s) (hc : 0 < c) :
    g / c < (s + (c - 1)) / c := by
  rw [count_lt_ceil_iff hc]
  exact Nat.lt_of_le_of_lt (Nat.div_mul_le_self g c) hg

theorem allLt_vdiv_grid :
    ∀ (g shape cs : List Nat), allLt g shape = true → allPos cs = true →
      allLt (vdiv g cs) (chunk_grid shape cs) = true := by
  intro g
  induction g with
  | nil =>
    intro shape cs hg _
    cases shape with
    | nil => simp [vdiv, chunk_grid, allLt]
    | cons s ss => simp [allLt] at hg
  | cons x g ih =>
    intro shape cs hg hpos
    cases shape with
    | nil => simp [allLt] at hg
    | cons s ss =>
      cases cs with
      | nil => simp [vdiv, chunk_grid, allLt]
      | cons c cs =>
        simp only [allLt, Bool.and_eq_true, decide_eq_true_eq] at hg
        simp only [allPos, Bool.and_eq_true, decide_eq_true_eq] at hpos
        simp only [vdiv, chunk_grid, List.zipWith_cons_cons, allLt,
          Bool.and_eq_true, decide_eq_true_eq]
        exact ⟨div_lt_ceil hg.1 hpos.1, ih ss cs hg.2 hpos.2⟩

theorem allLt_vmod_extent :
    ∀ (g shape cs : List Nat), allLt g shape = true → allPos cs = true →
      allLt (vmod g cs) (chunk_extent shape cs (vdiv g cs)) = true := by
  intro g
  induction g with
  | nil =>
    intro shape cs hg _
    cases shape with
    | nil => cases cs <;> simp [vmod, vdiv, chunk_extent, allLt]
    | cons s ss => simp [allLt] at hg
  | cons x g ih =>
    intro shape cs hg hpos
    cases shape with
    | nil => simp [allLt] at hg
    | cons s ss =>
      cases cs with
      | nil => simp [vmod, vdiv, chunk_extent, allLt]
      | cons c cs =>
        simp only [allLt, Bool.and_eq_true, decide_eq_true_eq] at hg
        simp only [allPos, Bool.and_eq_true, decide_eq_true_eq] at hpos
        simp only [vmod, vdiv, List.zipWith_cons_cons, chunk_extent, allLt,
          Bool.and_eq_true, decide_eq_true_eq]
        refine ⟨Nat.lt_min.mpr ⟨Nat.mod_lt x hpos.1, ?_⟩, ih ss cs hg.2 hpos.2⟩
        have hd := Nat.div_add_mod x c
        have hcomm : x / c * c = c * (x / c) := Nat.mul_comm _ _
        have hx := hg.1
        omega

theorem vadd_vmul_vdiv_vmod :
    ∀ (g cs : List Nat), g.length ≤ cs.length → allPos cs = true →
      vadd (vmul (vdiv g cs) cs) (vmod g cs) = g := by
  intro g
  induction g with
  | nil => intro cs _ _; simp [vadd, vmul, vdiv, vmod]
  | cons x g ih =>
    intro cs hlen hpos
    cases cs with
    | nil => simp at hlen
    | cons c cs =>
      simp only [allPos, Bool.and_eq_true, decide_eq_true_eq] at hpos
      simp only [List.length_cons, Nat.add_le_add_iff_right] at hlen
      simp only [vadd, vmul, vdiv, vmod, List.zipWith_cons_cons]
      have hd := Nat.div_add_mod x c
      have hcomm : x / c * c = c * (x / c) := Nat.mul_comm _ _
      have hx : x / c * c + x % c = x := by omega
      rw [hx]
      have := ih cs hlen hpos.2
      simp only [vadd, vmul, vdiv, vmod] at this
      simp [this]

/-! ## Fold lemmas for the sharded chunk writes of `load` -/

theorem load_write_ne {α : Type} (shape cs : List Nat) (data : List Nat → α)
    (st : ChunkStore α) {t u : Nat} (j : List Nat) (h : u ≠ t) :
    load_write shape cs data st t u j = st u j := by
  simp [load_write, h]

theorem foldl_load_write_notMem {α : Type} (shape cs : List Nat)
    (data : List Nat → α) :
    ∀ (L : List Nat) (st : ChunkStore α) (t : Nat) (j : List Nat), t ∉ L →
      (L.foldl (load_write shape cs data) st) t j = st t j := by
  intro L
  induction L with
  | nil => intro st t j _; rfl
  | cons x L ih =>
    intro st t j h
    simp only [List.mem_cons, not_or] at h
    simp only [List.foldl_cons]
    rw [ih _ _ _ h.2]
    exact load_write_ne shape cs data st j h.1

theorem foldl_load_write_mem {α : Type} (shape cs : List Nat)
    (data : List Nat → α) :
    ∀ (L : List Nat) (st : ChunkStore α) (t : Nat) (j : List Nat),
      t ∈ L →
      allLt j (chunk_extent shape cs (idx_from_flat (chunk_grid shape cs) t))
        = true →
      (L.foldl (load_write shape cs data) st) t j =
        some (data (vadd (vmul (idx_from_flat (chunk_grid shape cs) t) cs) j)) := by
  intro L
  induction L with
  | nil => intro st t j h; simp at h
  | cons x L ih =>
    intro st t j h hext
    simp only [List.foldl_cons]
    by_cases hL : t ∈ L
    · exact ih _ _ _ hL hext
    · have hx : t = x := by
        rcases List.mem_cons.mp h with h1 | h2
        · exact h1
        · exact absurd h2 hL
      rw [foldl_load_write_notMem shape cs data L _ _ _ hL]
      subst hx
      simp [load_write, hext]

theorem foldl_load_rank_notMem {α : Type} (shape cs : List Nat) (P : Nat)
    (data : List Nat → α) :
    ∀ (R : List Nat) (st : ChunkStore α) (t : Nat) (j : List Nat),
      (∀ r ∈ R, t ∉ chunk_shard r (total_chunks shape cs) P) →
      (R.foldl (load_rank shape cs P data) st) t j = st t j := by
  intro R
  induction R with
  | nil => intro st t j _; rfl
  | cons r R ih =>
    intro st t j h
    simp only [List.foldl_cons]
    rw [ih _ _ _ (fun r' hr' => h r' (List.mem_cons_of_mem _ hr'))]
    exact foldl_load_write_notMem shape cs data _ _ _ _ (h r (List.mem_cons_self _ _))

theorem foldl_load_rank_mem {α : Type} (shape cs : List Nat) (P : Nat)
    (data : List Nat → α) :
    ∀ (R : List Nat) (st : ChunkStore α) (t : Nat) (j : List Nat),
      (∃ r ∈ R, t ∈ chunk_shard r (total_chunks shape cs) P) →
      allLt j (chunk_extent shape cs (idx_from_flat (chunk_grid shape cs) t))
        = true →
      (R.foldl (load_rank shape cs P data) st) t j =
        some (data (vadd (vmul (idx_from_flat (chunk_grid shape cs) t) cs) j)) := by
  intro R
  induction R with
  | nil => intro st t j h; simp at h
  | cons r R ih =>
    intro st t j h hext
    simp only [List.foldl_cons]
    by_cases hR : ∃ r' ∈ R, t ∈ chunk_shard r' (total_chunks shape cs) P
    · exact ih _ _ _ hR hext
    · push_neg at hR
      obtain ⟨r0, hr0, hmem⟩ := h
      have hr : t ∈ chunk_shard r (total_chunks shape cs) P := by
        rcases List.mem_cons.mp hr0 with h1 | h2
        · exact h1 ▸ hmem
        · exact absurd hmem (hR r0 h2)
      rw [foldl_load_rank_notMem shape cs P data R _ _ _ hR]
      exact foldl_load_write_mem shape cs data _ _ _ _ hr hext

theorem load_run_chunk {α : Type} (shape cs : List Nat) (P : Nat)
    (data : List Nat → α) (st : ChunkStore α) (hP : 0 < P)
    (t : Nat) (ht : t < total_chunks shape cs) (j : List Nat)
    (hext : allLt j
      (chunk_extent shape cs (idx_from_flat (chunk_grid shape cs) t)) = true) :
    load_run shape cs P data st t j =
      some (data (vadd (vmul (idx_from_flat (chunk_grid shape cs) t) cs) j)) := by
  apply foldl_load_rank_mem
  · refine ⟨t % P, List.mem_range.mpr (Nat.mod_lt _ hP), ?_⟩
    exact (mem_chunk_shard hP (Nat.mod_lt _ hP)).mpr ⟨ht, rfl⟩
  · exact hext

/-- C3. Load round-trip: when the data's shape equals the dataset's
declared shape, after `load` completes — each process writing, for every
ordinal in its shard, the sub-array selected by that chunk's global slices
into the region selected by its local slices — reassembling the chunks
reproduces the data exactly at every in-bounds global coordinate. -/
theorem load_roundtrip {α : Type} (shape chunk_size data_shape : List Nat)
    (P : Nat) (data : List Nat → α) (st : ChunkStore α)
    (hP : 0 < P) (hpos : allPos chunk_size = true)
    (hlen : shape.length = chunk_size.length)
    (hshape : data_shape = shape) :
    ∀ g, allLt g shape = true →
      reassemble shape chunk_size
        (load shape chunk_size P data_shape data st).2 g = some (data g) := by
  subst data_shape
  intro g hg
  have hload : (load shape chunk_size P shape data st).2 =
      load_run shape chunk_size P data st := by
    simp [load]
  rw [hload]
  unfold reassemble
  have hdiv : allLt (vdiv g chunk_size) (chunk_grid shape chunk_size) = true :=
    allLt_vdiv_grid g shape chunk_size hg hpos
  have ht : flat_from_idx (chunk_grid shape chunk_size) (vdiv g chunk_size) <
      total_chunks shape chunk_size :=
    flat_from_idx_lt _ _ hdiv
  have hidx : idx_from_flat (chunk_grid shape chunk_size)
      (flat_from_idx (chunk_grid shape chunk_size) (vdiv g chunk_size)) =
      vdiv g chunk_size :=
    idx_from_flat_flat_from_idx _ _ hdiv
  have hext : allLt (vmod g chunk_size)
      (chunk_extent shape chunk_size (vdiv g chunk_size)) = true :=
    allLt_vmod_extent g shape chunk_size hg hpos
  rw [load_run_chunk shape chunk_size P data st hP _ ht _ (by rw [hidx]; exact hext)]
  rw [hidx]
  have hglen : g.length ≤ chunk_size.length := by
    rw [← hlen]
    exact Nat.le_of_eq (allLt_length hg)
  rw [vadd_vmul_vdiv_vmod g chunk_size hglen hpos]

/-- Concrete instance of `load_roundtrip`: a 4×4 dataset in 2×2 chunks
loaded over 3 ranks reassembles the input at coordinate (3,2). -/
theorem load_roundtrip_witness :
    reassemble [4, 4] [2, 2]
      (load [4, 4] [2, 2] 3 [4, 4] (fun g => 10 * g.headI + g.getLastD 0)
        (fun _ _ => none)).2 [3, 2] =
      some ((fun g : List Nat => 10 * g.headI + g.getLastD 0) [3, 2]) :=
  load_roundtrip [4, 4] [2, 2] [4, 4] 3 _ _ (by decide) (by decide) (by decide)
    rfl [3, 2] (by decide)

/-- C4. Load rejects a shape mismatch: when the data's shape differs from
the dataset's declared shape, `load` fails with `ShapeMismatch` and the
chunk store is returned untouched — zero chunk writes are performed. -/
theorem load_shape_mismatch {α : Type} (shape chunk_size data_shape : List Nat)
    (P : Nat) (data : List Nat → α) (st : ChunkStore α)
    (h : data_shape ≠ shape) :
    load shape chunk_size P data_shape data st =
      (some DosnaError.shapeMismatch, st) := by
  simp [load, h]

/-- Concrete instance of `load_shape_mismatch`: loading data of shape [3]
into a dataset of shape [4] errors out and leaves the store untouched. -/
theorem load_shape_mismatch_witness :
    load [4] [2] 2 [3] (fun _ => (0 : Nat)) (fun _ _ => none) =
      (some DosnaError.shapeMismatch, fun _ _ => none) :=
  load_shape_mismatch [4] [2] [3] 2 _ _ (by decide)

/-! ## Fold lemmas for `apply` and `map` -/

theorem foldl_apply_write_notMem {α : Type} (func : α → α) :
    ∀ (L : List Nat) (st : Nat → α) (t : Nat), t ∉ L →
      (L.foldl (apply_write func) st) t = st t := by
  intro L
  induction L with
  | nil => intro st t _; rfl
  | cons x L ih =>
    intro st t h
    simp only [List.mem_cons, not_or] at h
    simp only [List.foldl_cons]
    rw [ih _ _ h.2]
    simp [apply_write, h.1]

theorem foldl_apply_write_mem {α : Type} (func : α → α) :
    ∀ (L : List Nat) (st : Nat → α) (t : Nat), L.Nodup → t ∈ L →
      (L.foldl (apply_write func) st) t = func (st t) := by
  intro L
  induction L with
  | nil => intro st t _ h; simp at h
  | cons x L ih =>
    intro st t hnd h
    have hnd' := List.nodup_cons.mp hnd
    simp only [List.foldl_cons]
    by_cases hx : t = x
    · subst hx
      have hL : t ∉ L := hnd'.1
      rw [foldl_apply_write_notMem func L _ _ hL]
      simp [apply_write]
    · have hL : t ∈ L := by
        rcases List.mem_cons.mp h with h1 | h2
        · exact absurd h1 hx
        · exact h2
      rw [ih _ _ hnd'.2 hL]
      simp [apply_write, hx]

theorem nodup_chunk_shard {r T P : Nat} (hP : 0 < P) :
    (chunk_shard r T P).Nodup :=
  nodup_pyRange hP

theorem foldl_apply_rank_notMem {α : Type} (T P : Nat) (func : α → α) :
    ∀ (R : List Nat) (st : Nat → α) (t : Nat),
      (∀ r ∈ R, t ∉ chunk_shard r T P) →
      (R.foldl (apply_rank T P func) st) t = st t := by
  intro R
  induction R with
  | nil => intro st t _; rfl
  | cons r R ih =>
    intro st t h
    simp only [List.foldl_cons]
    rw [ih _ _ (fun r' hr' => h r' (List.mem_cons_of_mem _ hr'))]
    exact foldl_apply_write_notMem func _ _ _ (h r (List.mem_cons_self _ _))

theorem foldl_apply_rank_owner {α : Type} (T P : Nat) (func : α → α)
    (hP : 0 < P) :
    ∀ (R : List Nat) (st : Nat → α) (t : Nat), R.Nodup →
      (∀ r ∈ R, r < P) → t % P ∈ R → t < T →
      (R.foldl (apply_rank T P func) st) t = func (st t) := by
  intro R
  induction R with
  | nil => intro st t _ _ h _; simp at h
  | cons r R ih =>
    intro st t hnd hlt hmem ht
    have hnd' := List.nodup_cons.mp hnd
    simp only [List.foldl_cons]
    by_cases hr : r = t % P
    · have hrlt : r < P := hlt r (List.mem_cons_self _ _)
      have hshard : t ∈ chunk_shard r T P :=
        (mem_chunk_shard hP hrlt).mpr ⟨ht, hr.symm⟩
      have hnotR : ∀ r' ∈ R, t ∉ chunk_shard r' T P := by
        intro r' hr' hmem'
        have h2 := ((mem_chunk_shard hP (hlt r' (List.mem_cons_of_mem _ hr'))).mp
          hmem').2
        have hrr : r' = r := h2.symm.trans hr.symm
        exact hnd'.1 (hrr ▸ hr')
      rw [foldl_apply_rank_notMem T P func R _ _ hnotR]
      exact foldl_apply_write_mem func _ _ _ (nodup_chunk_shard hP) hshard
    · have hmem' : t % P ∈ R := by
        rcases List.mem_cons.mp hmem with h1 | h2
        · exact absurd h1.symm hr
        · exact h2
      have hnot : t ∉ chunk_shard r T P := by
        intro hmem''
        exact hr ((mem_chunk_shard hP (hlt r (List.mem_cons_self _ _))).mp
          hmem'').2.symm
      have h1 := ih (apply_rank T P func st r) t hnd'.2
        (fun r' hr' => hlt r' (List.mem_cons_of_mem _ hr')) hmem' ht
      rw [h1]
      have h2 : apply_rank T P func st r t = st t :=
        foldl_apply_write_notMem func _ _ _ hnot
      rw [h2]

/-- C6. Apply is in place: for every transform `func`, `apply(func)`
rewrites every chunk ordinal below `total_chunks` to `func` of its old
value, leaves ordinals outside the dataset untouched, and for the identity
transform every chunk's contents are unchanged. No output dataset appears:
`apply_run` maps the dataset's own store to itself. -/
theorem apply_run_pointwise {α : Type} (T P : Nat) (func : α → α)
    (st : Nat → α) (hP : 0 < P) :
    (∀ t, t < T → apply_run T P func st t = func (st t)) ∧
    (∀ t, T ≤ t → apply_run T P func st t = st t) ∧
    (∀ t, apply_run T P (fun x => x) st t = st t) := by
  have hmain : ∀ (f : α → α) t, t < T → apply_run T P f st t = f (st t) := by
    intro f t ht
    exact foldl_apply_rank_owner T P f hP (List.range P) st t
      (List.nodup_range P) (fun r hr => List.mem_range.mp hr)
      (List.mem_range.mpr (Nat.mod_lt _ hP)) ht
  refine ⟨hmain func, ?_, ?_⟩
  · intro t ht
    exact foldl_apply_rank_notMem T P func (List.range P) st t
      (fun r _ => notMem_chunk_shard_of_le ht)
  · intro t
    by_cases ht : t < T
    · exact hmain (fun x => x) t ht
    · exact foldl_apply_rank_notMem T P (fun x => x) (List.range P) st t
        (fun r _ => notMem_chunk_shard_of_le (Nat.le_of_not_lt ht))

/-- Concrete instance of `apply_run_pointwise`: applying the successor
transform over 4 chunks and 3 ranks increments chunk 2, and applying the
identity leaves chunk 5 (outside the dataset) unchanged. -/
theorem apply_run_pointwise_witness :
    apply_run 4 3 (fun x => x + 1) (fun t => 10 * t) 2 = 10 * 2 + 1 ∧
    apply_run 4 3 (fun x : Nat => x) (fun t => 10 * t) 5 = 10 * 5 :=
  ⟨(apply_run_pointwise 4 3 _ _ (by decide)).1 2 (by decide),
   (apply_run_pointwise 4 3 (fun x => x + 1) (fun t => 10 * t)
     (by decide)).2.2 5⟩

theorem foldl_map_write_fst {α : Type} (func : α → α) :
    ∀ (L : List Nat) (s : (Nat → α) × (Nat → α)),
      (L.foldl (map_write func) s).1 = s.1 := by
  intro L
  induction L with
  | nil => intro s; rfl
  | cons x L ih => intro s; simp only [List.foldl_cons]; rw [ih]; rfl

theorem foldl_map_write_notMem {α : Type} (func : α → α) :
    ∀ (L : List Nat) (s : (Nat → α) × (Nat → α)) (t : Nat), t ∉ L →
      (L.foldl (map_write func) s).2 t = s.2 t := by
  intro L
  induction L with
  | nil => intro s t _; rfl
  | cons x L ih =>
    intro s t h
    simp only [List.mem_cons, not_or] at h
    simp only [List.foldl_cons]
    rw [ih _ _ h.2]
    simp [map_write, h.1]

theorem foldl_map_write_mem {α : Type} (func : α → α) :
    ∀ (L : List Nat) (s : (Nat → α) × (Nat → α)) (t : Nat), t ∈ L →
      (L.foldl (map_write func) s).2 t = func (s.1 t) := by
  intro L
  induction L with
  | nil => intro s t h; simp at h
  | cons x L ih =>
    intro s t h
    simp only [List.foldl_cons]
    by_cases hL : t ∈ L
    · rw [ih _ _ hL]
      rfl
    · have hx : t = x := by
        rcases List.mem_cons.mp h with h1 | h2
        · exact h1
        · exact absurd h2 hL
      subst hx
      rw [foldl_map_write_notMem func L _ _ hL]
      simp [map_write]

theorem foldl_map_rank_fst {α : Type} (T P : Nat) (func : α → α) :
    ∀ (R : List Nat) (s : (Nat → α) × (Nat → α)),
      (R.foldl (map_rank T P func) s).1 = s.1 := by
  intro R
  induction R with
  | nil => intro s; rfl
  | cons r R ih =>
    intro s
    simp only [List.foldl_cons]
    rw [ih]
    exact foldl_map_write_fst func _ _

theorem foldl_map_rank_notMem {α : Type} (T P : Nat) (func : α → α) :
    ∀ (R : List Nat) (s : (Nat → α) × (Nat → α)) (t : Nat),
      (∀ r ∈ R, t ∉ chunk_shard r T P) →
      (R.foldl (map_rank T P func) s).2 t = s.2 t := by
  intro R
  induction R with
  | nil => intro s t _; rfl
  | cons r R ih =>
    intro s t h
    simp only [List.foldl_cons]
    rw [ih _ _ (fun r' hr' => h r' (List.mem_cons_of_mem _ hr'))]
    exact foldl_map_write_notMem func _ _ _ (h r (List.mem_cons_self _ _))

theorem foldl_map_rank_mem {α : Type} (T P : Nat) (func : α → α) :
    ∀ (R : List Nat) (s : (Nat → α) × (Nat → α)) (t : Nat),
      (∃ r ∈ R, t ∈ chunk_shard r T P) →
      (R.foldl (map_rank T P func) s).2 t = func (s.1 t) := by
  intro R
  induction R with
  | nil => intro s t h; simp at h
  | cons r R ih =>
    intro s t h
    simp only [List.foldl_cons]
    by_cases hR : ∃ r' ∈ R, t ∈ chunk_shard r' T P
    · rw [ih _ _ hR]
      exact congrArg func (congrFun (foldl_map_write_fst func _ _) t)
    · push_neg at hR
      obtain ⟨r0, hr0, hmem⟩ := h
      have hr : t ∈ chunk_shard r T P := by
        rcases List.mem_cons.mp hr0 with h1 | h2
        · exact h1 ▸ hmem
        · exact absurd hmem (hR r0 h2)
      rw [foldl_map_rank_notMem T P func R _ _ hR]
      exact foldl_map_write_mem func _ _ _ hr

/-- C5. Map purity: for every transform `func`, `map` leaves the source
dataset's chunk store unchanged, and every chunk of the output dataset
below `total_chunks` equals `func` of the corresponding source chunk. -/
theorem map_run_pure {α : Type} (T P : Nat) (func : α → α)
    (s : (Nat → α) × (Nat → α)) (hP : 0 < P) :
    (map_run T P func s).1 = s.1 ∧
    (∀ t, t < T → (map_run T P func s).2 t = func (s.1 t)) := by
  constructor
  · exact foldl_map_rank_fst T P func (List.range P) s
  · intro t ht
    apply foldl_map_rank_mem
    refine ⟨t % P, List.mem_range.mpr (Nat.mod_lt _ hP), ?_⟩
    exact (mem_chunk_shard hP (Nat.mod_lt _ hP)).mpr ⟨ht, rfl⟩

/-- Concrete instance of `map_run_pure`: mapping the successor transform
over 4 chunks and 3 ranks leaves the source store intact and produces
`func(source)` at chunk 3. -/
theorem map_run_pure_witness :
    (map_run 4 3 (fun x => x + 1) (fun t => 10 * t, fun _ => 0)).1 =
      (fun t => 10 * t) ∧
    (map_run 4 3 (fun x => x + 1) (fun t => 10 * t, fun _ => 0)).2 3 =
      10 * 3 + 1 :=
  ⟨(map_run_pure 4 3 _ _ (by decide)).1,
   (map_run_pure 4 3 _ _ (by decide)).2 3 (by decide)⟩

/-! ## Metadata-operation trace theorems -/

/-- Counterexample to C2 as stated: in `create_pool` the root's mutating
backend call is the first event of the operation — there is no leading
barrier — so the mutation is not bracketed by barriers on both sides. -/
theorem create_pool_not_bracketed :
    mutationsBracketed (create_pool (testCluster ramBackend 0) "p").2.2
      = false := by
  decide

/-- C2 (amended). Every metadata mutation (pool create/delete, dataset
create/delete, chunk create, and the dataset create inside clone) is
issued only by the root process, and every mutation is followed by a
barrier; the deletes are additionally preceded by a barrier, while the
creates begin with the root mutation and carry only the trailing barrier,
and clone's create is followed by a broadcast instead of a barrier. -/
theorem metadata_mutation_discipline (c : MpiClusterS) (is_root : Bool)
    (pname dsname : String) (args : List Nat)
    (kwargs : List (String × Nat)) (idx : Nat) :
    (mpi_is_root c = false →
      metaMutationFree (create_pool c pname).2.2 = true ∧
      metaMutationFree (del_pool c pname).2 = true) ∧
    (is_root = false →
      metaMutationFree (create_dataset is_root dsname args kwargs).events
        = true ∧
      metaMutationFree (del_dataset is_root dsname) = true ∧
      metaMutationFree (create_chunk is_root idx) = true ∧
      metaMutationFree (clone_events is_root dsname) = true) ∧
    mutationsFollowedByBarrier (create_pool c pname).2.2 = true ∧
    mutationsFollowedByBarrier (del_pool c pname).2 = true ∧
    mutationsFollowedByBarrier
      (create_dataset is_root dsname args kwargs).events = true ∧
    mutationsFollowedByBarrier (del_dataset is_root dsname) = true ∧
    mutationsFollowedByBarrier (create_chunk is_root idx) = true ∧
    mutationsPrecededByBarrier (del_pool c pname).2 = true ∧
    mutationsPrecededByBarrier (del_dataset is_root dsname) = true ∧
    clone_events true dsname = [Ev.createDatasetB dsname, Ev.bcast 0] := by
  refine ⟨?_, ?_, ?_, ?_, ?_, ?_, ?_, ?_, ?_, rfl⟩
  · intro h
    cases hceph : ceph_backend c <;>
      simp [create_pool, del_pool, get_pool, h, hceph, metaMutationFree,
        isMetaMutation]
  · intro h
    subst h
    cases hk : kwLookup kwargs "data" <;>
      simp [create_dataset, del_dataset, create_chunk, clone_events, hk,
        metaMutationFree, isMetaMutation]
  · cases hroot : mpi_is_root c <;> cases hceph : ceph_backend c <;>
      simp [create_pool, get_pool, hroot, hceph, mutationsFollowedByBarrier,
        isMetaMutation, isBarrier]
  · cases hroot : mpi_is_root c <;> cases hceph : ceph_backend c <;>
      simp [del_pool, hroot, hceph, mutationsFollowedByBarrier,
        isMetaMutation, isBarrier]
  · cases is_root <;> cases hk : kwLookup kwargs "data" <;>
      simp [create_dataset, hk, mutationsFollowedByBarrier, isMetaMutation,
        isBarrier]
  · cases is_root <;>
      simp [del_dataset, mutationsFollowedByBarrier, isMetaMutation,
        isBarrier]
  · cases is_root <;>
      simp [create_chunk, mutationsFollowedByBarrier, isMetaMutation,
        isBarrier]
  · cases hroot : mpi_is_root c <;> cases hceph : ceph_backend c <;>
      simp [del_pool, hroot, hceph, mutationsPrecededByBarrier,
        mutationsFollowedByBarrier, isMetaMutation, isBarrier]
  · cases is_root <;>
      simp [del_dataset, mutationsPrecededByBarrier,
        mutationsFollowedByBarrier, isMetaMutation, isBarrier]

/-- Concrete instance of `metadata_mutation_discipline`: a non-root process
running `create_pool` performs no metadata mutation. -/
theorem metadata_mutation_discipline_witness :
    metaMutationFree (create_pool (testCluster ramBackend 1) "p").2.2
      = true :=
  ((metadata_mutation_discipline (testCluster ramBackend 1) false "p" "d"
    [] [] 0).1 (by decide)).1

/-- Counterexample to C8 as stated: the source keys the reconnect step on
the hard-coded backend name (`backend.name == 'ceph'`), not on the
declared capability flag — a backend named `ram` whose capability flag is
set gets no reconnect step, so `create_pool` diverges from the
flag-driven variant the claim describes. -/
theorem create_pool_specFlag_diverges :
    (create_pool (testCluster flaggedRamBackend 0) "p").2.2 ≠
      (create_pool_specFlag (testCluster flaggedRamBackend 0) "p").2.2 := by
  decide

/-- C8 (amended). `create_pool` executes, in order: root's backend create;
barrier; if and only if the backend's name is the hard-coded string
`ceph`, disconnect, recreate the cluster instance from the stored
(backend, name, opts), connect, and a second barrier; finally every
process independently fetches and wraps the pool, which is the return
value. -/
theorem create_pool_order (c : MpiClusterS) (name : String) :
    (create_pool c name).1 = { pname := name, mpi_comm := c.mpi_comm } ∧
    (ceph_backend c = true →
      (create_pool c name).2.1 =
        { c with instance_gen := c.instance_gen + 1 } ∧
      (mpi_is_root c = true →
        (create_pool c name).2.2 =
          [Ev.createPoolB name, Ev.barrier, Ev.disconnectB,
            Ev.newClusterB c.backend.name c.cname, Ev.connectB, Ev.barrier,
            Ev.getPoolB name]) ∧
      (mpi_is_root c = false →
        (create_pool c name).2.2 =
          [Ev.barrier, Ev.disconnectB,
            Ev.newClusterB c.backend.name c.cname, Ev.connectB, Ev.barrier,
            Ev.getPoolB name])) ∧
    (ceph_backend c = false →
      (create_pool c name).2.1 = c ∧
      (mpi_is_root c = true →
        (create_pool c name).2.2 =
          [Ev.createPoolB name, Ev.barrier, Ev.getPoolB name]) ∧
      (mpi_is_root c = false →
        (create_pool c name).2.2 = [Ev.barrier, Ev.getPoolB name])) := by
  refine ⟨?_, ?_, ?_⟩
  · cases hceph : ceph_backend c <;> simp [create_pool, get_pool, hceph]
  · intro hceph
    refine ⟨by simp [create_pool, get_pool, hceph], ?_, ?_⟩ <;>
      intro hroot <;> simp [create_pool, get_pool, hceph, hroot]
  · intro hceph
    refine ⟨by simp [create_pool, get_pool, hceph], ?_, ?_⟩ <;>
      intro hroot <;> simp [create_pool, get_pool, hceph, hroot]

/-- Concrete instance of `create_pool_order`: the full root-side trace on a
ceph-named backend. -/
theorem create_pool_order_witness :
    (create_pool (testCluster cephStorageBackend 0) "p").2.2 =
      [Ev.createPoolB "p", Ev.barrier, Ev.disconnectB,
        Ev.newClusterB "ceph" "c", Ev.connectB, Ev.barrier,
        Ev.getPoolB "p"] :=
  ((create_pool_order (testCluster cephStorageBackend 0) "p").2.1
    (by decide)).2.1 (by decide)

/-- C7. Clone fidelity: the cloned dataset carries the source's shape,
dtype, chunk size and fill value (hence the same total chunk count) under
the new name; the handle comes from root's create and is broadcast — the
trace holds no by-name refetch — and every process returns it wrapped and
bound to the shared communicator. -/
theorem clone_metadata_broadcast (d : MpiDatasetS) (output_name : String) :
    (clone d output_name).inst.shape = d.inst.shape ∧
    (clone d output_name).inst.dtype = d.inst.dtype ∧
    (clone d output_name).inst.chunk_size = d.inst.chunk_size ∧
    (clone d output_name).inst.fillvalue = d.inst.fillvalue ∧
    (clone d output_name).inst.name = output_name ∧
    total_chunks (clone d output_name).inst.shape
        (clone d output_name).inst.chunk_size =
      total_chunks d.inst.shape d.inst.chunk_size ∧
    (clone d output_name).mpi_comm = d.mpi_comm ∧
    clone_events true output_name =
      [Ev.createDatasetB output_name, Ev.bcast 0] ∧
    clone_events false output_name = [Ev.bcast 0] ∧
    (∀ is_root n, Ev.getDatasetB n ∉ clone_events is_root output_name) := by
  refine ⟨rfl, rfl, rfl, rfl, rfl, rfl, rfl, rfl, rfl, ?_⟩
  intro is_root n
  cases is_root <;> simp [clone_events]

/-- Concrete instance of `clone_metadata_broadcast`: the clone keeps the
shared communicator. -/
theorem clone_metadata_broadcast_witness :
    (clone srcDataset "out").mpi_comm = 5 :=
  (clone_metadata_broadcast srcDataset "out").2.2.2.2.2.2.1

/-- C9. The getters are pure, independent per-process fetches: each calls
exactly the backend get and wraps the result with the shared communicator,
its trace holds no barrier, broadcast or metadata mutation, and the
caller's state is returned unchanged. -/
theorem get_ops_pure (c : MpiClusterS) (p : MpiPoolH) (d : MpiDatasetS)
    (backend_ds : DatasetHandle) (name : String) (idx : Nat) :
    ((get_pool c name).2.1 = c ∧
      (get_pool c name).2.2 = [Ev.getPoolB name] ∧
      (get_pool c name).1 = { pname := name, mpi_comm := c.mpi_comm }) ∧
    ((get_dataset p backend_ds).2.1 = p ∧
      (get_dataset p backend_ds).2.2 = [Ev.getDatasetB backend_ds.name] ∧
      (get_dataset p backend_ds).1 =
        { inst := backend_ds, mpi_comm := p.mpi_comm }) ∧
    ((get_chunk d idx).2.1 = d ∧
      (get_chunk d idx).2.2 = [Ev.getChunkB idx] ∧
      (get_chunk d idx).1 = idx) ∧
    (get_pool c name).2.2.all
      (fun e => !(isCollective e) && !(isMetaMutation e)) = true ∧
    (get_dataset p backend_ds).2.2.all
      (fun e => !(isCollective e) && !(isMetaMutation e)) = true ∧
    (get_chunk d idx).2.2.all
      (fun e => !(isCollective e) && !(isMetaMutation e)) = true := by
  refine ⟨⟨rfl, rfl, rfl⟩, ⟨rfl, rfl, rfl⟩, ⟨rfl, rfl, rfl⟩, ?_, ?_, ?_⟩ <;>
    simp [get_pool, get_dataset, get_chunk, isCollective, isMetaMutation]

/-- C10. `create_dataset` invokes the collective load exactly when initial
data is supplied under the keyword `data` — positional arguments never
trigger it — and the keyword arguments, the `data` entry included, are
forwarded unchanged to root's backend create call. -/
theorem create_dataset_data_keyword (is_root : Bool) (name : String)
    (args : List Nat) (kwargs : List (String × Nat)) :
    ((∃ v, Ev.loadEv v ∈ (create_dataset is_root name args kwargs).events) ↔
      (kwLookup kwargs "data").isSome = true) ∧
    (∀ v, kwLookup kwargs "data" = some v →
      Ev.loadEv v ∈ (create_dataset is_root name args kwargs).events) ∧
    (kwLookup kwargs "data" = none →
      ∀ v, Ev.loadEv v ∉ (create_dataset is_root name args kwargs).events) ∧
    (create_dataset is_root name args kwargs).root_call =
      (if is_root then some (args, kwargs) else none) := by
  cases is_root <;> cases hk : kwLookup kwargs "data" <;>
    simp [create_dataset, hk]

/-- Concrete instance of `create_dataset_data_keyword`: data passed under
the `data` keyword triggers the collective load with that value. -/
theorem create_dataset_data_keyword_witness :
    Ev.loadEv 7 ∈ (create_dataset true "d" [] [("data", 7)]).events :=
  (create_dataset_data_keyword true "d" [] [("data", 7)]).2.1 7 (by decide)

end DosNa
